import Mathlib

/-!
Verification of the small_crypto repository: a shallow embedding of the
Collector (`scripts/collect_data.py`) and the Analyzer
(`scripts/analyze_data.py`) together with theorems about the behaviour the
design document describes.

Conventions of the embedding:
* machine floats become exact rationals (`ℚ`); pandas/SQL NULL and NaN
  become `Option ℚ` with `none` for a missing value;
* calendar dates become day numbers (`ℕ`, days since the epoch); the epoch
  day 0 (1970-01-01) was a Thursday, so the `%w` weekday of day `d` is
  `(d + 4) % 7` with `0 = Sunday`;
* Python exceptions become explicit error constructors returned by the
  modelled function;
* the `requests.get` call is modelled by a stream `ℕ → ApiResult` giving
  the outcome of the n-th HTTP attempt.
-/

/-- The parsed `market_chart` JSON: three index-aligned arrays of
`[timestamp_ms, value]` pairs. -/
structure FetchedData where
  prices : List (ℕ × ℚ)
  total_volumes : List (ℕ × ℚ)
  market_caps : List (ℕ × ℚ)
deriving DecidableEq

/-- Outcome of a single HTTP attempt (`requests.get` + `raise_for_status`):
either a parsed JSON body, an `HTTPError` with a status code, or some other
`RequestException` (connection error, timeout, ...). -/
inductive ApiResult where
  | ok (data : FetchedData)
  | httpError (status : ℕ)
  | requestError
deriving DecidableEq

/-- How `fetch_crypto_data` can finish: return parsed data, fall off the end
of the retry loop and return `None` (the Python `return None` on line 85),
or raise (`HTTPError` re-raised for a non-429 status, `RequestException`
re-raised on the last attempt). -/
inductive FetchRes where
  | success (data : FetchedData)
  | noData
  | errHTTP (status : ℕ)
  | errRequest
deriving DecidableEq

/-- Constant `max_retries = 3` in `fetch_crypto_data`. -/
def max_retries : ℕ := 3

/-- Constant `retry_delay = 5` seconds in `fetch_crypto_data`. -/
def retry_delay : ℕ := 5

/-- Whether a `FetchRes` corresponds to an exception propagating out of
`fetch_crypto_data` (as opposed to a normal return). -/
def isRaise : FetchRes → Bool
  | .errHTTP _ => true
  | .errRequest => true
  | _ => false

/-- The body of the `for attempt in range(max_retries)` loop of
`fetch_crypto_data`.  Arguments: the attempt counter, the seconds slept so
far, and the remaining loop iterations.  Returns the result together with
the number of HTTP attempts actually made and the total seconds slept. -/
def fetchGo (responses : ℕ → ApiResult) : ℕ → ℕ → ℕ → FetchRes × ℕ × ℕ
  | attempt, slept, 0 => (.noData, attempt, slept)
  | attempt, slept, fuel + 1 =>
    match responses attempt with
    | .ok d => (.success d, attempt + 1, slept)
    | .httpError s =>
        if s = 429 then fetchGo responses (attempt + 1) (slept + retry_delay) fuel
        else (.errHTTP s, attempt + 1, slept)
    | .requestError =>
        if attempt = max_retries - 1 then (.errRequest, attempt + 1, slept)
        else fetchGo responses (attempt + 1) (slept + retry_delay) fuel

/-- Function `fetch_crypto_data` from `collect_data.py`: up to `max_retries` attempts;
a 429 status sleeps `retry_delay` and retries; any other HTTP status is
re-raised at once; any other request error is re-raised only on the last
attempt; if every attempt was rate-limited the function returns `None`. -/
def fetch_crypto_data (responses : ℕ → ApiResult) : FetchRes × ℕ × ℕ :=
  fetchGo responses 0 0 max_retries

/-- A stored row of the `bitcoin`/`ethereum` table:
`date (primary key), price, volume, market_cap`. -/
structure Row where
  date : ℕ
  price : Option ℚ
  volume : Option ℚ
  market_cap : Option ℚ
deriving DecidableEq, Inhabited

/-- A table state: the rows in storage order. -/
abbrev Table := List Row

/-- SQLite `INSERT OR REPLACE` keyed on the `date` primary key: delete any
conflicting row, then append the new one. -/
def upsert (r : Row) (t : Table) : Table :=
  t.filter (fun s => !(s.date == r.date)) ++ [r]

/-- The `for ... in zip(...)` loop of `store_data`: upsert each row in turn. -/
def storeRows (rs : List Row) (t : Table) : Table :=
  rs.foldl (fun acc r => upsert r acc) t

/-- The date `datetime.fromtimestamp(timestamp_ms / 1000).strftime('%Y-%m-%d')`,
as a day number (UTC convention). -/
def tsToDate (ts_ms : ℕ) : ℕ := ts_ms / 1000 / 86400

/-- The rows `store_data` builds from the fetched JSON:
`zip(data['prices'], data['total_volumes'], data['market_caps'])`, date taken
from the price pair's timestamp. -/
def rowsOf (d : FetchedData) : List Row :=
  (d.prices.zip (d.total_volumes.zip d.market_caps)).map fun x =>
    { date := tsToDate x.1.1
      price := some x.1.2
      volume := some x.2.1.2
      market_cap := some x.2.2.2 }

/-- Function `store_data` from `collect_data.py` on one asset's table. -/
def store_data (d : FetchedData) (t : Table) : Table :=
  storeRows (rowsOf d) t

/-- What one asset's processing in `main` can produce. -/
inductive CoinOutcome where
  | stored
  | noData
deriving DecidableEq

/-- An exception aborting `main`'s loop: a raised fetch error, or a
`sqlite3.Error` from `store_data`. -/
inductive JobError where
  | fetchHTTP (status : ℕ)
  | fetchTransport
  | storeFailed
deriving DecidableEq

/-- The environment one coin's processing sees: the HTTP attempt outcomes
and whether the sqlite writes for it succeed. -/
structure CoinEnv where
  responses : ℕ → ApiResult
  storeOk : Bool

/-- The `for coin in coins` loop of `main` in `collect_data.py`: fetch, then
store when data was returned, log and continue when fetch returned `None`;
a raised exception propagates out of the loop (the surrounding
`try/except` logs and re-raises), so no later coin is processed.  Returns
the per-coin outcomes in order, and the aborting error if any. -/
def processCoins : List CoinEnv → List CoinOutcome × Option JobError
  | [] => ([], none)
  | e :: rest =>
    match (fetch_crypto_data e.responses).1 with
    | .success _ =>
        if e.storeOk then
          let r := processCoins rest
          (.stored :: r.1, r.2)
        else ([], some .storeFailed)
    | .noData =>
        let r := processCoins rest
        (.noData :: r.1, r.2)
    | .errHTTP s => ([], some (.fetchHTTP s))
    | .errRequest => ([], some .fetchTransport)

/-- An asset's processing cannot abort the job: its fetch either succeeds
(and its store succeeds), or exhausts the rate-limit retries and returns no
data. -/
def goodEnv (e : CoinEnv) : Bool :=
  match (fetch_crypto_data e.responses).1 with
  | .success _ => e.storeOk
  | .noData => true
  | _ => false

/-- Claim C1: the claim says that when every attempt is answered with HTTP 429 the
fetch raises a transient-remote error after exactly 3 attempts.  In the code
the retry loop falls off its end and `fetch_crypto_data` returns `None`
(a normal return, not a raise), though indeed after exactly 3 attempts:
this closed computation exhibits the non-raising completion. -/
theorem C1_counterexample :
    fetch_crypto_data (fun _ => ApiResult.httpError 429) = (FetchRes.noData, 3, 15) ∧
    isRaise FetchRes.noData = false :=
  ⟨rfl, rfl⟩

/-- Claim C1 (amended): when the remote API answers HTTP 429 on every attempt,
`fetch_crypto_data` makes exactly `max_retries = 3` attempts (sleeping
`retry_delay` seconds after each) and then completes by returning `None`
(no data), rather than raising an error. -/
theorem C1_rate_limit_returns_none (responses : ℕ → ApiResult)
    (h : ∀ i, i < max_retries → responses i = ApiResult.httpError 429) :
    fetch_crypto_data responses = (FetchRes.noData, 3, 15) := by
  have h0 := h 0 (by norm_num [max_retries])
  have h1 := h 1 (by norm_num [max_retries])
  have h2 := h 2 (by norm_num [max_retries])
  simp [fetch_crypto_data, max_retries, retry_delay, fetchGo, h0, h1, h2]

/-- Claim C1 witness: the amended theorem evaluated on the all-429 stream. -/
theorem C1_rate_limit_returns_none_witness :
    fetch_crypto_data (fun _ => ApiResult.httpError 429) = (FetchRes.noData, 3, 15) :=
  C1_rate_limit_returns_none (fun _ => ApiResult.httpError 429) (fun _ _ => rfl)

/-- Claim C3: the claim says every non-rate-limit transport or protocol error is
retried up to the 3-attempt ceiling.  An HTTP 500 protocol error is
re-raised immediately: `fetch_crypto_data` makes exactly one attempt. -/
theorem C3_counterexample :
    fetch_crypto_data (fun _ => ApiResult.httpError 500) = (FetchRes.errHTTP 500, 1, 0) ∧
    (1 : ℕ) ≠ max_retries :=
  ⟨rfl, by decide⟩

/-- Claim C3 (amended): non-HTTP transport errors (`RequestException`) are retried
with the fixed delay up to the 3-attempt ceiling and then surfaced, while an
HTTP protocol error with a status other than 429 is surfaced immediately on
the attempt where it occurs, without any retry. -/
theorem C3_transport_retried_http_immediate :
    (∀ responses : ℕ → ApiResult,
      (∀ i, i < max_retries → responses i = ApiResult.requestError) →
      fetch_crypto_data responses = (FetchRes.errRequest, 3, 10)) ∧
    (∀ (responses : ℕ → ApiResult) (s : ℕ), s ≠ 429 →
      responses 0 = ApiResult.httpError s →
      fetch_crypto_data responses = (FetchRes.errHTTP s, 1, 0)) := by
  constructor
  · intro responses h
    have h0 := h 0 (by norm_num [max_retries])
    have h1 := h 1 (by norm_num [max_retries])
    have h2 := h 2 (by norm_num [max_retries])
    simp [fetch_crypto_data, max_retries, retry_delay, fetchGo, h0, h1, h2]
  · intro responses s hs h0
    simp [fetch_crypto_data, max_retries, retry_delay, fetchGo, h0, hs]

/-- Claim C3 witness: both parts of the amended theorem at concrete streams. -/
theorem C3_transport_retried_http_immediate_witness :
    fetch_crypto_data (fun _ => ApiResult.requestError) = (FetchRes.errRequest, 3, 10) ∧
    fetch_crypto_data (fun _ => ApiResult.httpError 503) = (FetchRes.errHTTP 503, 1, 0) :=
  ⟨C3_transport_retried_http_immediate.1 _ (fun _ _ => rfl),
   C3_transport_retried_http_immediate.2 _ 503 (by decide) rfl⟩

/-- Claim C2: the claim says an earlier asset's fetch/store failure never prevents
a later asset from being processed.  A non-429 HTTP error raises out of
`main`'s loop: with it on the first coin nothing is processed, although the
second coin on its own would be. -/
theorem C2_counterexample :
    (processCoins [⟨fun _ => ApiResult.httpError 500, true⟩,
        ⟨fun _ => ApiResult.httpError 429, true⟩]).1.length ≠ 2 ∧
    processCoins [⟨fun _ => ApiResult.httpError 500, true⟩,
        ⟨fun _ => ApiResult.httpError 429, true⟩] = ([], some (JobError.fetchHTTP 500)) ∧
    processCoins [⟨fun _ => ApiResult.httpError 429, true⟩] = ([CoinOutcome.noData], none) :=
  ⟨by decide, rfl, rfl⟩

/-- Claim C2 (amended): only a fetch that exhausts the rate-limit retries (and so
returns no data) is logged and lets the job continue; when every coin's
fetch either succeeds with a working store or returns no data, every coin is
processed, while a raised fetch error (non-429 HTTP status, or a transport
error on the last attempt) or a store failure aborts the job at that coin,
so no later asset is fetched or stored. -/
theorem C2_noData_continues_raise_aborts :
    (∀ envs : List CoinEnv, envs.all goodEnv = true →
      (processCoins envs).1.length = envs.length ∧ (processCoins envs).2 = none) ∧
    (∀ (e : CoinEnv) (rest : List CoinEnv) (s : ℕ),
      (fetch_crypto_data e.responses).1 = FetchRes.errHTTP s →
      processCoins (e :: rest) = ([], some (JobError.fetchHTTP s))) ∧
    (∀ (e : CoinEnv) (rest : List CoinEnv),
      (fetch_crypto_data e.responses).1 = FetchRes.errRequest →
      processCoins (e :: rest) = ([], some JobError.fetchTransport)) ∧
    (∀ (e : CoinEnv) (rest : List CoinEnv) (d : FetchedData),
      (fetch_crypto_data e.responses).1 = FetchRes.success d → e.storeOk = false →
      processCoins (e :: rest) = ([], some JobError.storeFailed)) := by
  refine ⟨?_, ?_, ?_, ?_⟩
  · intro envs
    induction envs with
    | nil => intro _; exact ⟨rfl, rfl⟩
    | cons e rest ih =>
      intro h
      rw [List.all_cons, Bool.and_eq_true] at h
      obtain ⟨he, hrest⟩ := h
      obtain ⟨ih1, ih2⟩ := ih hrest
      unfold goodEnv at he
      cases hfe : (fetch_crypto_data e.responses).1 with
      | success d =>
        rw [hfe] at he
        simp only [] at he
        simp [processCoins, hfe, he, ih1, ih2]
      | noData =>
        simp [processCoins, hfe, ih1, ih2]
      | errHTTP s => rw [hfe] at he; cases he
      | errRequest => rw [hfe] at he; cases he
  · intro e rest s h
    simp [processCoins, h]
  · intro e rest h
    simp [processCoins, h]
  · intro e rest d hfe hstore
    simp [processCoins, hfe, hstore]

/-- Claim C2 witness: the amended theorem at concrete coin environments,
including a failing store on the first coin aborting the job. -/
theorem C2_noData_continues_raise_aborts_witness :
    (processCoins [⟨fun _ => ApiResult.httpError 429, true⟩,
        ⟨fun _ => ApiResult.ok ⟨[], [], []⟩, true⟩]).1.length = 2 ∧
    processCoins [⟨fun _ => ApiResult.requestError, true⟩,
        ⟨fun _ => ApiResult.httpError 429, true⟩] = ([], some JobError.fetchTransport) ∧
    processCoins [⟨fun _ => ApiResult.ok ⟨[], [], []⟩, false⟩,
        ⟨fun _ => ApiResult.httpError 429, true⟩] = ([], some JobError.storeFailed) :=
  ⟨(C2_noData_continues_raise_aborts.1 _ (by decide)).1,
   C2_noData_continues_raise_aborts.2.2.1 _ _ rfl,
   C2_noData_continues_raise_aborts.2.2.2 _ _ ⟨[], [], []⟩ rfl rfl⟩

/-- The row `s` clashes with the date of no row of `rs`. -/
def notInDates (rs : List Row) (s : Row) : Bool :=
  rs.all fun r => !(s.date == r.date)

theorem filter_upsert_self (r : Row) (t : Table) :
    (upsert r t).filter (fun s => s.date == r.date) = [r] := by
  simp [upsert, List.filter_append, List.filter_filter]

theorem storeRows_eq (rs : List Row) :
    ∀ t : Table, storeRows rs t = t.filter (notInDates rs) ++ storeRows rs [] := by
  induction rs with
  | nil =>
    intro t
    show t = t.filter (notInDates []) ++ storeRows [] []
    have hall : t.filter (notInDates []) = t := List.filter_eq_self.2 (fun a _ => rfl)
    rw [hall]
    show t = t ++ []
    rw [List.append_nil]
  | cons r rs ih =>
    intro t
    have step : storeRows (r :: rs) t = storeRows rs (upsert r t) := rfl
    rw [step, ih (upsert r t)]
    have step0 : storeRows (r :: rs) [] = storeRows rs [r] := rfl
    rw [step0, ih [r]]
    simp only [upsert, List.filter_append, List.filter_filter]
    rw [List.append_assoc]
    congr 1
    apply List.filter_congr
    intro s _
    simp [notInDates, Bool.and_comm]

theorem mem_storeRows (rs : List Row) :
    ∀ (t : Table) (s : Row), s ∈ storeRows rs t → s ∈ t ∨ ∃ r ∈ rs, s.date = r.date := by
  induction rs with
  | nil => intro t s hs; exact Or.inl hs
  | cons r rs ih =>
    intro t s hs
    have hs' : s ∈ storeRows rs (upsert r t) := hs
    rcases ih (upsert r t) s hs' with hmem | ⟨r', hr', hd⟩
    · rcases List.mem_append.1 hmem with hf | hr
      · exact Or.inl (List.mem_of_mem_filter hf)
      · exact Or.inr ⟨r, List.mem_cons_self r rs, by rw [List.mem_singleton.1 hr]⟩
    · exact Or.inr ⟨r', List.mem_cons_of_mem r hr', hd⟩

theorem storeRows_idem (rs : List Row) (t : Table) :
    storeRows rs (storeRows rs t) = storeRows rs t := by
  have key : (storeRows rs []).filter (notInDates rs) = [] := by
    rw [List.filter_eq_nil_iff]
    intro s hs
    rcases mem_storeRows rs [] s hs with h | ⟨r, hr, hd⟩
    · cases h
    · simp only [notInDates, List.all_eq_true, Bool.not_eq_true']
      intro hall
      have := hall r hr
      simp [hd] at this
  calc storeRows rs (storeRows rs t)
      = (storeRows rs t).filter (notInDates rs) ++ storeRows rs [] := storeRows_eq rs _
    _ = (t.filter (notInDates rs) ++ storeRows rs []).filter (notInDates rs)
          ++ storeRows rs [] := by rw [← storeRows_eq rs t]
    _ = t.filter (notInDates rs)
          ++ ((storeRows rs []).filter (notInDates rs) ++ storeRows rs []) := by
        simp [List.filter_append, List.filter_filter, List.append_assoc]
    _ = t.filter (notInDates rs) ++ storeRows rs [] := by rw [key, List.nil_append]
    _ = storeRows rs t := (storeRows_eq rs t).symm

/-- Claim C6: storing the same calendar date twice is an upsert: after `store_data`
of date `D` with price `P` and then of `D` with price `Pnew`, the table holds
exactly one row for `D`, carrying `Pnew`; and re-running `store_data` with
identical data leaves the stored rows unchanged. -/
theorem C6_store_data_upsert (t : Table) (ts : ℕ) (P V M Pnew Vnew Mnew : ℚ) :
    (store_data ⟨[(ts, Pnew)], [(ts, Vnew)], [(ts, Mnew)]⟩
        (store_data ⟨[(ts, P)], [(ts, V)], [(ts, M)]⟩ t)).filter
        (fun s => s.date == tsToDate ts)
      = [{ date := tsToDate ts, price := some Pnew, volume := some Vnew,
           market_cap := some Mnew }] ∧
    (∀ (d : FetchedData) (u : Table), store_data d (store_data d u) = store_data d u) := by
  constructor
  · exact filter_upsert_self ⟨tsToDate ts, some Pnew, some Vnew, some Mnew⟩
      (store_data ⟨[(ts, P)], [(ts, V)], [(ts, M)]⟩ t)
  · intro d u
    exact storeRows_idem (rowsOf d) u

/-- The nearest valid value at a position strictly before `i` in a column
(`none` entries are pandas NaN), together with its position. -/
def interpPrev (col : List (Option ℚ)) (i : ℕ) : Option (ℕ × ℚ) :=
  (List.range i).reverse.findSome? fun j => (col.getD j none).map fun v => (j, v)

/-- The nearest valid value at a position strictly after `i`, with its
position. -/
def interpNext (col : List (Option ℚ)) (i : ℕ) : Option (ℕ × ℚ) :=
  ((List.range (col.length - (i + 1))).map fun t => i + 1 + t).findSome? fun k =>
    (col.getD k none).map fun v => (k, v)

/-- One column of `df.interpolate(method='linear', limit_direction='both')`:
`method='linear'` treats the values as equally spaced in row order (the
index is ignored), a missing value between two valid neighbours gets the
straight-line value, and with `limit_direction='both'` leading and trailing
gaps are clamped to the nearest valid value.  Present values are kept. -/
def interpolateCol (col : List (Option ℚ)) : List (Option ℚ) :=
  (List.range col.length).map fun i =>
    match col.getD i none with
    | some v => some v
    | none =>
      match interpPrev col i, interpNext col i with
      | some jv, some kv =>
          some (jv.2 + (kv.2 - jv.2) * (((i : ℚ) - jv.1) / ((kv.1 : ℚ) - jv.1)))
      | some jv, none => some jv.2
      | none, some kv => some kv.2
      | none, none => none

/-- The check `df.isnull().any().any()` over the three value columns (the parsed date
column of `read_sql_query` is never null). -/
def hasNull (df : List Row) : Bool :=
  df.any fun r => r.price.isNone || r.volume.isNone || r.market_cap.isNone

/-- The frame-level `df.interpolate(method='linear', limit_direction='both')`: each numeric
column is interpolated independently, in presentation order. -/
def interpolateDF (df : List Row) : List Row :=
  let pcol := interpolateCol (df.map Row.price)
  let vcol := interpolateCol (df.map Row.volume)
  let mcol := interpolateCol (df.map Row.market_cap)
  (List.range df.length).map fun i =>
    { df.getD i default with
      price := pcol.getD i none
      volume := vcol.getD i none
      market_cap := mcol.getD i none }

/-- A pandas elementwise `series <= c` on a possibly-NaN value: comparisons
with NaN are false. -/
def leB : Option ℚ → ℚ → Bool
  | some x, c => decide (x ≤ c)
  | none, _ => false

/-- A pandas elementwise `series > c`: comparisons with NaN are false. -/
def gtB : Option ℚ → ℚ → Bool
  | some x, c => decide (c < x)
  | none, _ => false

/-- The anomaly check `(df['price'] <= 0).any() or (df['volume'] <= 0).any()`. -/
def hasAnomaly (df : List Row) : Bool :=
  df.any fun r => leB r.price 0 || leB r.volume 0

/-- The `sort_values('date')` order on rows. -/
def dateLE (a b : Row) : Prop := a.date ≤ b.date

instance : DecidableRel dateLE := fun a b => inferInstanceAs (Decidable (a.date ≤ b.date))

instance : IsTotal Row dateLE := ⟨fun a b => Nat.le_total a.date b.date⟩

instance : IsTrans Row dateLE := ⟨fun _ _ _ h1 h2 => Nat.le_trans h1 h2⟩

/-- Strict date order, used to show sorting is determined on distinct dates. -/
def dateLT (a b : Row) : Prop := a.date < b.date

instance : IsAntisymm Row dateLT := ⟨fun _ _ h1 h2 => absurd h2 (Nat.lt_asymm h1)⟩

/-- Sorting `df.sort_values('date')`. -/
def sortByDate (df : List Row) : List Row := List.insertionSort dateLE df

/-- Function `clean_data` from `analyze_data.py`: interpolate only when some value is
missing, filter to positive price and volume only when some row is
non-positive on either, then sort ascending by date. -/
def clean_data (df : List Row) : List Row :=
  let df1 := if hasNull df then interpolateDF df else df
  let df2 := if hasAnomaly df1 then df1.filter (fun r => gtB r.price 0 && gtB r.volume 0)
             else df1
  sortByDate df2

/-- Claim C7: with observations on days 1, 2, 3 where day 2's price is missing and
the neighbours hold 10 and 30, `clean_data`'s linear interpolation gives
day 2 the price 20. -/
theorem C7_interpolation_midpoint :
    (clean_data [⟨1, some 10, some 1, some 1⟩, ⟨2, none, some 1, some 1⟩,
        ⟨3, some 30, some 1, some 1⟩]).map Row.price
      = [some 10, some 20, some 30] := by
  norm_num [clean_data, hasNull, interpolateDF, interpolateCol, interpPrev, interpNext,
    hasAnomaly, leB, gtB, sortByDate, List.insertionSort, List.orderedInsert, dateLE,
    List.range_succ]

/-- Claim C8: every observation whose price or volume is a non-positive number is
absent from `clean_data`'s output; such a row is dropped, never replaced by
an interpolated value (interpolation keeps every present value unchanged);
and the surviving rows come out sorted ascending by date. -/
theorem C8_nonpositive_dropped_sorted (df : List Row) :
    (∀ r ∈ clean_data df, ∀ p : ℚ, r.price = some p ∨ r.volume = some p → 0 < p) ∧
    List.Sorted (· ≤ ·) ((clean_data df).map Row.date) ∧
    (∀ (col : List (Option ℚ)) (i : ℕ) (v : ℚ),
      col.getD i none = some v → (interpolateCol col).getD i none = some v) := by
  refine ⟨?_, ?_, ?_⟩
  · intro r hr p hp
    unfold clean_data sortByDate at hr
    have hr2 := (List.perm_insertionSort dateLE _).subset hr
    set df1 := if hasNull df then interpolateDF df else df with hdf1
    by_cases hA : hasAnomaly df1
    · rw [if_pos hA] at hr2
      have hpred := (List.mem_filter.1 hr2).2
      rw [Bool.and_eq_true] at hpred
      rcases hp with hp | hp
      · have := hpred.1
        rw [hp] at this
        exact of_decide_eq_true this
      · have := hpred.2
        rw [hp] at this
        exact of_decide_eq_true this
    · rw [if_neg hA] at hr2
      have hfalse : hasAnomaly df1 = false := by
        revert hA
        cases hasAnomaly df1 <;> simp
      unfold hasAnomaly at hfalse
      rw [List.any_eq_false] at hfalse
      have hrow := hfalse r hr2
      rw [Bool.or_eq_true] at hrow
      push_neg at hrow
      rcases hp with hp | hp
      · have h2 := hrow.1
        rw [hp] at h2
        exact lt_of_not_le fun hle => h2 (decide_eq_true hle)
      · have h2 := hrow.2
        rw [hp] at h2
        exact lt_of_not_le fun hle => h2 (decide_eq_true hle)
  · have hs : List.Sorted dateLE (clean_data df) := by
      unfold clean_data sortByDate
      exact List.sorted_insertionSort dateLE _
    exact List.Pairwise.map Row.date (fun a b h => h) hs
  · intro col i v h
    rw [List.getD_eq_getElem?_getD] at h
    have hlen : i < col.length := by
      rcases Nat.lt_or_ge i col.length with hl | hg
      · exact hl
      · rw [List.getElem?_eq_none hg] at h; cases h
    rw [List.getElem?_eq_getElem hlen] at h
    simp only [Option.getD_some] at h
    unfold interpolateCol
    rw [List.getD_eq_getElem?_getD, List.getElem?_map, List.getElem?_range hlen]
    simp [List.getD_eq_getElem?_getD, List.getElem?_eq_getElem hlen, h]

/-- Claim C8 witness: the positivity conjunct applied to a concrete cleaned row. -/
theorem C8_nonpositive_dropped_sorted_witness :
    (⟨1, some 10, some 2, some 3⟩ : Row) ∈ clean_data [⟨1, some 10, some 2, some 3⟩] ∧
    (0 : ℚ) < 10 := by
  have hmem : (⟨1, some 10, some 2, some 3⟩ : Row) ∈
      clean_data [⟨1, some 10, some 2, some 3⟩] := by
    norm_num [clean_data, hasNull, hasAnomaly, leB, gtB, sortByDate,
      List.insertionSort, List.orderedInsert]
  exact ⟨hmem,
    (C8_nonpositive_dropped_sorted [⟨1, some 10, some 2, some 3⟩]).1 _ hmem 10 (Or.inl rfl)⟩

theorem any_perm_eq {α : Type} {l1 l2 : List α} (h : l1.Perm l2) (p : α → Bool) :
    l1.any p = l2.any p := by
  induction h with
  | nil => rfl
  | cons x _ ih => simp [List.any_cons, ih]
  | swap x y l => simp [List.any_cons, Bool.or_left_comm]
  | trans _ _ ih1 ih2 => rw [ih1, ih2]

/-- Sorting by date is determined by the multiset of rows once dates are
distinct (the store's primary-key invariant). -/
theorem sortByDate_eq_of_perm (l1 l2 : List Row) (hp : l1.Perm l2)
    (hnd : (l1.map Row.date).Nodup) : sortByDate l1 = sortByDate l2 := by
  have hperm : (sortByDate l1).Perm (sortByDate l2) :=
    ((List.perm_insertionSort dateLE l1).trans hp).trans
      (List.perm_insertionSort dateLE l2).symm
  have hnd1 : ((sortByDate l1).map Row.date).Nodup :=
    (((List.perm_insertionSort dateLE l1).map Row.date).nodup_iff).2 hnd
  have hnd2 : ((sortByDate l2).map Row.date).Nodup :=
    (((List.perm_insertionSort dateLE l2).map Row.date).nodup_iff).2
      (((hp.map Row.date).nodup_iff).1 hnd)
  have hlt1 : List.Sorted dateLT (sortByDate l1) := by
    have hne : (sortByDate l1).Pairwise (fun a b => a.date ≠ b.date) :=
      (List.pairwise_map).1 hnd1
    exact ((List.sorted_insertionSort dateLE l1).and hne).imp
      (fun h => lt_of_le_of_ne h.1 h.2)
  have hlt2 : List.Sorted dateLT (sortByDate l2) := by
    have hne : (sortByDate l2).Pairwise (fun a b => a.date ≠ b.date) :=
      (List.pairwise_map).1 hnd2
    exact ((List.sorted_insertionSort dateLE l2).and hne).imp
      (fun h => lt_of_le_of_ne h.1 h.2)
  exact List.eq_of_perm_of_sorted hperm hlt1 hlt2

/-- Claim C5: the claim says cleaning yields the same output for any input order
of the same observations.  With a missing value present, interpolation runs
in presentation order before sorting: these two orderings of the same three
observations clean to different outputs (day 2 gets price 20 in sorted
presentation but price 10 when presented first). -/
theorem C5_counterexample :
    ([⟨1, some 10, some 1, some 1⟩, ⟨2, none, some 1, some 1⟩,
        ⟨3, some 30, some 1, some 1⟩] : List Row).Perm
      [⟨2, none, some 1, some 1⟩, ⟨1, some 10, some 1, some 1⟩,
        ⟨3, some 30, some 1, some 1⟩] ∧
    clean_data [⟨1, some 10, some 1, some 1⟩, ⟨2, none, some 1, some 1⟩,
        ⟨3, some 30, some 1, some 1⟩]
      ≠ clean_data [⟨2, none, some 1, some 1⟩, ⟨1, some 10, some 1, some 1⟩,
        ⟨3, some 30, some 1, some 1⟩] := by
  constructor
  · exact List.Perm.swap _ _ _
  · intro hEq
    have hA : (clean_data [⟨1, some 10, some 1, some 1⟩, ⟨2, none, some 1, some 1⟩,
        ⟨3, some 30, some 1, some 1⟩]).map Row.price = [some 10, some 20, some 30] := by
      norm_num [clean_data, hasNull, interpolateDF, interpolateCol, interpPrev, interpNext,
        hasAnomaly, leB, gtB, sortByDate, List.insertionSort, List.orderedInsert, dateLE,
        List.range_succ]
    have hB : (clean_data [⟨2, none, some 1, some 1⟩, ⟨1, some 10, some 1, some 1⟩,
        ⟨3, some 30, some 1, some 1⟩]).map Row.price = [some 10, some 10, some 30] := by
      norm_num [clean_data, hasNull, interpolateDF, interpolateCol, interpPrev, interpNext,
        hasAnomaly, leB, gtB, sortByDate, List.insertionSort, List.orderedInsert, dateLE,
        List.range_succ]
    rw [hEq, hB] at hA
    norm_num at hA

/-- Claim C5 (amended): for inputs with no missing values (so interpolation does
not run) and pairwise-distinct dates (the store's invariant), cleaning is
order-independent: any permutation of the observations cleans to the same
sorted, filtered output.  With missing values present, interpolation
operates in presentation order before sorting, so different input orders
can produce different interpolated values. -/
theorem C5_order_independent_without_missing (dfa dfb : List Row)
    (hperm : dfa.Perm dfb) (hnull : hasNull dfa = false)
    (hnd : (dfa.map Row.date).Nodup) :
    clean_data dfa = clean_data dfb := by
  have hnullb : hasNull dfb = false := (any_perm_eq hperm _).symm.trans hnull
  have hanom : hasAnomaly dfa = hasAnomaly dfb := any_perm_eq hperm _
  have ha : (if hasNull dfa then interpolateDF dfa else dfa) = dfa := by rw [hnull]; rfl
  have hb : (if hasNull dfb then interpolateDF dfb else dfb) = dfb := by rw [hnullb]; rfl
  unfold clean_data
  rw [ha, hb]
  show sortByDate (if hasAnomaly dfa then dfa.filter (fun r => gtB r.price 0 && gtB r.volume 0)
        else dfa)
      = sortByDate (if hasAnomaly dfb then dfb.filter (fun r => gtB r.price 0 && gtB r.volume 0)
        else dfb)
  by_cases hA : hasAnomaly dfa
  · rw [if_pos hA, if_pos (hanom ▸ hA)]
    have hsub : ((dfa.filter fun r => gtB r.price 0 && gtB r.volume 0).map Row.date).Sublist
        (dfa.map Row.date) := (List.filter_sublist dfa).map Row.date
    exact sortByDate_eq_of_perm _ _ (hperm.filter _) (hnd.sublist hsub)
  · rw [if_neg hA, if_neg (hanom ▸ hA)]
    exact sortByDate_eq_of_perm _ _ hperm hnd

/-- Claim C5 witness: the amended theorem on a concrete two-row permutation. -/
theorem C5_order_independent_without_missing_witness :
    clean_data [⟨2, some 5, some 1, some 1⟩, ⟨1, some 4, some 2, some 2⟩]
      = clean_data [⟨1, some 4, some 2, some 2⟩, ⟨2, some 5, some 1, some 1⟩] :=
  C5_order_independent_without_missing _ _ (List.Perm.swap _ _ _) rfl (by decide)

/-- Pandas `Series.mean()` with default `skipna=True`: the mean of the
non-NaN values, NaN (`none`) when there are none. -/
def pmean (xs : List (Option ℚ)) : Option ℚ :=
  let vs := xs.filterMap id
  if vs.length = 0 then none else some (vs.sum / vs.length)

/-- Pandas `Series.std()` squared (sample variance, `ddof=1`, skipna): NaN
for fewer than two valid values.  The source takes the square root of this;
the square is carried because the root is irrational in general. -/
def pvarianceSample (xs : List (Option ℚ)) : Option ℚ :=
  let vs := xs.filterMap id
  if vs.length < 2 then none
  else
    let m := vs.sum / vs.length
    some ((vs.map fun x => (x - m) * (x - m)).sum / (vs.length - 1))

/-- NaN-propagating subtraction on scalars. -/
def psub : Option ℚ → Option ℚ → Option ℚ
  | some a, some b => some (a - b)
  | _, _ => none

/-- NaN-propagating multiplication on scalars. -/
def pmul : Option ℚ → Option ℚ → Option ℚ
  | some a, some b => some (a * b)
  | _, _ => none

/-- NaN-propagating division on scalars.  Division by zero produces an IEEE
infinity or NaN in the source; both are modelled as a non-number. -/
def pdiv : Option ℚ → Option ℚ → Option ℚ
  | some a, some b => if b = 0 then none else some (a / b)
  | _, _ => none

/-- How the analysis stage can fail: `indexError` models the pandas
`IndexError` that `.iloc[-1]` raises on an empty series.  `dataQuality` is
the explicit insufficient-data error of the design document's taxonomy
(`DataQualityError`); the code never raises it, the constructor exists to
state the comparison. -/
inductive AnalyzeErr where
  | indexError
  | dataQuality
deriving DecidableEq

/-- The per-coin summary dict built in `analyze_data`; `volatility_cv2` is
the square of the coefficient-of-variation percentage (see
`pvarianceSample`). -/
structure Summary where
  mean_price : Option ℚ
  volatility_cv2 : Option ℚ
  price_change_pct : Option ℚ
  avg_volume : Option ℚ
deriving DecidableEq

/-- The per-coin entries of `analyze_data`'s dict: mean price, volatility as
CV%, percentage change from first to last row, mean volume.  Python
evaluates all four values before the dict exists, and
`df['price'].iloc[-1]` raises `IndexError` when the frame is empty, so the
whole computation fails on an empty frame. -/
def assetSummary (df : List Row) : Except AnalyzeErr Summary :=
  let prices := df.map Row.price
  match prices.getLast?, prices.head? with
  | some lastP, some firstP =>
    .ok { mean_price := pmean prices
          volatility_cv2 :=
            pmul (pdiv (pvarianceSample prices) (pmul (pmean prices) (pmean prices)))
              (some 10000)
          price_change_pct := pmul (pdiv (psub lastP firstP) firstP) (some 100)
          avg_volume := pmean (df.map Row.volume) }
  | _, _ => .error .indexError

/-- Claim C4: the claim says statistics over an empty cleaned series fail with an
explicit insufficient-data error.  The code does fail before emitting any
NaN, but with the generic pandas `IndexError` from `.iloc[-1]`, not with an
explicit insufficient-data (`DataQualityError`) signal. -/
theorem C4_counterexample :
    assetSummary ([] : List Row) = Except.error AnalyzeErr.indexError ∧
    AnalyzeErr.indexError ≠ AnalyzeErr.dataQuality :=
  ⟨rfl, by decide⟩

/-- Claim C4 (amended): when the cleaned series for an asset is empty, the
statistics stage aborts with the generic index error raised by the
first/last-element lookup (so no NaN reaches any summary value), rather
than with an explicit insufficient-data error. -/
theorem C4_empty_raises_index_error (df : List Row) (h : clean_data df = []) :
    assetSummary (clean_data df) = Except.error AnalyzeErr.indexError := by
  rw [h]; rfl

/-- Claim C4 witness: a series whose single row has a non-positive price cleans to
empty, and the statistics stage then yields the index error. -/
theorem C4_empty_raises_index_error_witness :
    assetSummary (clean_data [⟨1, some (-5), some 1, some 1⟩])
      = Except.error AnalyzeErr.indexError :=
  C4_empty_raises_index_error _ (by
    norm_num [clean_data, hasNull, hasAnomaly, leB, gtB, sortByDate,
      List.insertionSort, List.orderedInsert])

/-- The value `strftime('%w', date)` as a weekday number, `0 = Sunday`: day 0 of the
epoch was a Thursday, so day `d` falls on weekday `(d + 4) % 7`. -/
def wd (d : ℕ) : Fin 7 := ⟨(d + 4) % 7, Nat.mod_lt _ (by norm_num)⟩

/-- The `CASE strftime('%w', date) ... END` mapping of the aggregation
query. -/
def weekdayName (w : Fin 7) : String :=
  match w.val with
  | 0 => "Sunday"
  | 1 => "Monday"
  | 2 => "Tuesday"
  | 3 => "Wednesday"
  | 4 => "Thursday"
  | 5 => "Friday"
  | _ => "Saturday"

/-- SQL `AVG` over a group: NULLs are ignored; NULL when no value
remains. -/
def sqlAvg (xs : List (Option ℚ)) : Option ℚ :=
  let vs := xs.filterMap id
  if vs.length = 0 then none else some (vs.sum / vs.length)

/-- One result row of the weekday aggregation query:
`weekday_num, weekday, avg_price, avg_volume`. -/
structure AggRow where
  weekday_num : Fin 7
  weekday : String
  avg_price : Option ℚ
  avg_volume : Option ℚ
deriving DecidableEq

/-- The `SELECT ... FROM bitcoin GROUP BY weekday_num ORDER BY weekday_num`
query of `analyze_data`: one row per weekday value that occurs in the
table, in ascending `'0'`..`'6'` (Sunday-first) order, averaging price and
volume over all stored rows of that weekday. -/
def weekdayAgg (table : Table) : List AggRow :=
  (List.finRange 7).filterMap fun w =>
    let g := table.filter fun r => wd r.date == w
    if g.isEmpty then none
    else some { weekday_num := w
                weekday := weekdayName w
                avg_price := sqlAvg (g.map Row.price)
                avg_volume := sqlAvg (g.map Row.volume) }

/-- The scan behind pandas `Series.idxmax()`: keep the first position whose
value all later values fail to exceed strictly; NaN entries are skipped. -/
def idxmaxGo : List (Option ℚ) → ℕ → Option (ℕ × ℚ) → Option (ℕ × ℚ)
  | [], _, best => best
  | none :: xs, i, best => idxmaxGo xs (i + 1) best
  | some v :: xs, i, none => idxmaxGo xs (i + 1) (some (i, v))
  | some v :: xs, i, some (bi, bv) =>
      if bv < v then idxmaxGo xs (i + 1) (some (i, v))
      else idxmaxGo xs (i + 1) (some (bi, bv))

/-- Pandas `Series.idxmax()` on a positionally indexed series. -/
def idxmax (xs : List (Option ℚ)) : Option ℕ :=
  (idxmaxGo xs 0 none).map Prod.fst

/-- The scan behind pandas `Series.idxmin()`. -/
def idxminGo : List (Option ℚ) → ℕ → Option (ℕ × ℚ) → Option (ℕ × ℚ)
  | [], _, best => best
  | none :: xs, i, best => idxminGo xs (i + 1) best
  | some v :: xs, i, none => idxminGo xs (i + 1) (some (i, v))
  | some v :: xs, i, some (bi, bv) =>
      if v < bv then idxminGo xs (i + 1) (some (i, v))
      else idxminGo xs (i + 1) (some (bi, bv))

/-- Pandas `Series.idxmin()` on a positionally indexed series. -/
def idxmin (xs : List (Option ℚ)) : Option ℕ :=
  (idxminGo xs 0 none).map Prod.fst

/-- The report's `iloc[...idxmax()]['weekday']` lookup: the weekday name of
the first aggregation row attaining the maximal average volume. -/
def highest_volume_weekday (agg : List AggRow) : Option String :=
  (idxmax (agg.map AggRow.avg_volume)).bind fun i => (agg[i]?).map AggRow.weekday

/-- The report's `iloc[...idxmin()]['weekday']` lookup. -/
def lowest_volume_weekday (agg : List AggRow) : Option String :=
  (idxmin (agg.map AggRow.avg_volume)).bind fun i => (agg[i]?).map AggRow.weekday

/-- Position `k` (absolute; the list starts at absolute position `i0`) holds
the first occurrence of the maximum of the valid values of `xs`. -/
def IsFirstMaxFrom (xs : List (Option ℚ)) (i0 k : ℕ) (v : ℚ) : Prop :=
  i0 ≤ k ∧ xs.getD (k - i0) none = some v ∧
  (∀ j w, xs.getD j none = some w → w ≤ v) ∧
  (∀ j w, j + i0 < k → xs.getD j none = some w → w < v)

theorem IsFirstMaxFrom.cons_max {x : Option ℚ} {xs : List (Option ℚ)} {i0 k : ℕ} {v : ℚ}
    (h : IsFirstMaxFrom xs (i0 + 1) k v) (hx : ∀ u, x = some u → u < v) :
    IsFirstMaxFrom (x :: xs) i0 k v := by
  obtain ⟨hik, hget, hmax, hfirst⟩ := h
  refine ⟨by omega, ?_, ?_, ?_⟩
  · have hke : k - i0 = (k - (i0 + 1)) + 1 := by omega
    rw [hke, List.getD_cons_succ]
    exact hget
  · intro j w hj
    cases j with
    | zero =>
      rw [List.getD_cons_zero] at hj
      exact le_of_lt (hx w hj)
    | succ j =>
      rw [List.getD_cons_succ] at hj
      exact hmax j w hj
  · intro j w hjk hj
    cases j with
    | zero =>
      rw [List.getD_cons_zero] at hj
      exact hx w hj
    | succ j =>
      rw [List.getD_cons_succ] at hj
      exact hfirst j w (by omega) hj

theorem firstMax_here {u : ℚ} {xs : List (Option ℚ)} {i0 : ℕ}
    (hmax : ∀ j w, xs.getD j none = some w → w ≤ u) :
    IsFirstMaxFrom (some u :: xs) i0 i0 u := by
  refine ⟨le_refl _, by simp, ?_, ?_⟩
  · intro j w hj
    cases j with
    | zero =>
      rw [List.getD_cons_zero] at hj
      cases hj
      exact le_refl _
    | succ j =>
      rw [List.getD_cons_succ] at hj
      exact hmax j w hj
  · intro j w hjk _
    exact absurd hjk (by omega)

theorem idxmaxGo_spec : ∀ (xs : List (Option ℚ)) (i0 bi : ℕ) (bv : ℚ),
    ∃ k v, idxmaxGo xs i0 (some (bi, bv)) = some (k, v) ∧
      ((k = bi ∧ v = bv ∧ ∀ j w, xs.getD j none = some w → w ≤ bv) ∨
       (bv < v ∧ IsFirstMaxFrom xs i0 k v)) := by
  intro xs
  induction xs with
  | nil =>
    intro i0 bi bv
    exact ⟨bi, bv, rfl, Or.inl ⟨rfl, rfl, fun j w hj => by simp at hj⟩⟩
  | cons x xs ih =>
    intro i0 bi bv
    cases x with
    | none =>
      obtain ⟨k, v, hgo, hc⟩ := ih (i0 + 1) bi bv
      refine ⟨k, v, hgo, ?_⟩
      rcases hc with ⟨hk, hv, hmax⟩ | ⟨hlt, hfm⟩
      · refine Or.inl ⟨hk, hv, ?_⟩
        intro j w hj
        cases j with
        | zero => rw [List.getD_cons_zero] at hj; cases hj
        | succ j => rw [List.getD_cons_succ] at hj; exact hmax j w hj
      · exact Or.inr ⟨hlt, hfm.cons_max (fun u hu => by cases hu)⟩
    | some u =>
      by_cases hbl : bv < u
      · have hstep : idxmaxGo (some u :: xs) i0 (some (bi, bv))
            = idxmaxGo xs (i0 + 1) (some (i0, u)) := by
          simp only [idxmaxGo]
          rw [if_pos hbl]
        obtain ⟨k, v, hgo, hc⟩ := ih (i0 + 1) i0 u
        rcases hc with ⟨rfl, rfl, hmax⟩ | ⟨hlt, hfm⟩
        · exact ⟨k, v, by rw [hstep]; exact hgo, Or.inr ⟨hbl, firstMax_here hmax⟩⟩
        · exact ⟨k, v, by rw [hstep]; exact hgo,
            Or.inr ⟨lt_trans hbl hlt, hfm.cons_max (fun w hw => by cases hw; exact hlt)⟩⟩
      · have hstep : idxmaxGo (some u :: xs) i0 (some (bi, bv))
            = idxmaxGo xs (i0 + 1) (some (bi, bv)) := by
          simp only [idxmaxGo]
          rw [if_neg hbl]
        have hub : u ≤ bv := le_of_not_lt hbl
        obtain ⟨k, v, hgo, hc⟩ := ih (i0 + 1) bi bv
        rcases hc with ⟨hk, hv, hmax⟩ | ⟨hlt, hfm⟩
        · refine ⟨k, v, by rw [hstep]; exact hgo, Or.inl ⟨hk, hv, ?_⟩⟩
          intro j w hj
          cases j with
          | zero => rw [List.getD_cons_zero] at hj; cases hj; exact hub
          | succ j => rw [List.getD_cons_succ] at hj; exact hmax j w hj
        · exact ⟨k, v, by rw [hstep]; exact hgo,
            Or.inr ⟨hlt, hfm.cons_max (fun w hw => by cases hw; exact lt_of_le_of_lt hub hlt)⟩⟩

theorem idxmaxGo_none_spec : ∀ (xs : List (Option ℚ)) (i0 : ℕ),
    idxmaxGo xs i0 none = none ∨
    ∃ k v, idxmaxGo xs i0 none = some (k, v) ∧ IsFirstMaxFrom xs i0 k v := by
  intro xs
  induction xs with
  | nil => intro i0; exact Or.inl rfl
  | cons x xs ih =>
    intro i0
    cases x with
    | none =>
      rcases ih (i0 + 1) with hnone | ⟨k, v, hgo, hfm⟩
      · exact Or.inl hnone
      · exact Or.inr ⟨k, v, hgo, hfm.cons_max (fun u hu => by cases hu)⟩
    | some u =>
      obtain ⟨k, v, hgo, hc⟩ := idxmaxGo_spec xs (i0 + 1) i0 u
      refine Or.inr ?_
      rcases hc with ⟨rfl, rfl, hmax⟩ | ⟨hlt, hfm⟩
      · exact ⟨k, v, hgo, firstMax_here hmax⟩
      · exact ⟨k, v, hgo, hfm.cons_max (fun w hw => by cases hw; exact hlt)⟩

/-- Position `k` holds the first occurrence of the minimum of the valid
values of `xs` (absolute positions; the list starts at `i0`). -/
def IsFirstMinFrom (xs : List (Option ℚ)) (i0 k : ℕ) (v : ℚ) : Prop :=
  i0 ≤ k ∧ xs.getD (k - i0) none = some v ∧
  (∀ j w, xs.getD j none = some w → v ≤ w) ∧
  (∀ j w, j + i0 < k → xs.getD j none = some w → v < w)

theorem IsFirstMinFrom.cons_min {x : Option ℚ} {xs : List (Option ℚ)} {i0 k : ℕ} {v : ℚ}
    (h : IsFirstMinFrom xs (i0 + 1) k v) (hx : ∀ u, x = some u → v < u) :
    IsFirstMinFrom (x :: xs) i0 k v := by
  obtain ⟨hik, hget, hmin, hfirst⟩ := h
  refine ⟨by omega, ?_, ?_, ?_⟩
  · have hke : k - i0 = (k - (i0 + 1)) + 1 := by omega
    rw [hke, List.getD_cons_succ]
    exact hget
  · intro j w hj
    cases j with
    | zero =>
      rw [List.getD_cons_zero] at hj
      exact le_of_lt (hx w hj)
    | succ j =>
      rw [List.getD_cons_succ] at hj
      exact hmin j w hj
  · intro j w hjk hj
    cases j with
    | zero =>
      rw [List.getD_cons_zero] at hj
      exact hx w hj
    | succ j =>
      rw [List.getD_cons_succ] at hj
      exact hfirst j w (by omega) hj

theorem firstMin_here {u : ℚ} {xs : List (Option ℚ)} {i0 : ℕ}
    (hmin : ∀ j w, xs.getD j none = some w → u ≤ w) :
    IsFirstMinFrom (some u :: xs) i0 i0 u := by
  refine ⟨le_refl _, by simp, ?_, ?_⟩
  · intro j w hj
    cases j with
    | zero =>
      rw [List.getD_cons_zero] at hj
      cases hj
      exact le_refl _
    | succ j =>
      rw [List.getD_cons_succ] at hj
      exact hmin j w hj
  · intro j w hjk _
    exact absurd hjk (by omega)

theorem idxminGo_spec : ∀ (xs : List (Option ℚ)) (i0 bi : ℕ) (bv : ℚ),
    ∃ k v, idxminGo xs i0 (some (bi, bv)) = some (k, v) ∧
      ((k = bi ∧ v = bv ∧ ∀ j w, xs.getD j none = some w → bv ≤ w) ∨
       (v < bv ∧ IsFirstMinFrom xs i0 k v)) := by
  intro xs
  induction xs with
  | nil =>
    intro i0 bi bv
    exact ⟨bi, bv, rfl, Or.inl ⟨rfl, rfl, fun j w hj => by simp at hj⟩⟩
  | cons x xs ih =>
    intro i0 bi bv
    cases x with
    | none =>
      obtain ⟨k, v, hgo, hc⟩ := ih (i0 + 1) bi bv
      refine ⟨k, v, hgo, ?_⟩
      rcases hc with ⟨hk, hv, hmin⟩ | ⟨hlt, hfm⟩
      · refine Or.inl ⟨hk, hv, ?_⟩
        intro j w hj
        cases j with
        | zero => rw [List.getD_cons_zero] at hj; cases hj
        | succ j => rw [List.getD_cons_succ] at hj; exact hmin j w hj
      · exact Or.inr ⟨hlt, hfm.cons_min (fun u hu => by cases hu)⟩
    | some u =>
      by_cases hbl : u < bv
      · have hstep : idxminGo (some u :: xs) i0 (some (bi, bv))
            = idxminGo xs (i0 + 1) (some (i0, u)) := by
          simp only [idxminGo]
          rw [if_pos hbl]
        obtain ⟨k, v, hgo, hc⟩ := ih (i0 + 1) i0 u
        rcases hc with ⟨rfl, rfl, hmin⟩ | ⟨hlt, hfm⟩
        · exact ⟨k, v, by rw [hstep]; exact hgo, Or.inr ⟨hbl, firstMin_here hmin⟩⟩
        · exact ⟨k, v, by rw [hstep]; exact hgo,
            Or.inr ⟨lt_trans hlt hbl, hfm.cons_min (fun w hw => by cases hw; exact hlt)⟩⟩
      · have hstep : idxminGo (some u :: xs) i0 (some (bi, bv))
            = idxminGo xs (i0 + 1) (some (bi, bv)) := by
          simp only [idxminGo]
          rw [if_neg hbl]
        have hub : bv ≤ u := le_of_not_lt hbl
        obtain ⟨k, v, hgo, hc⟩ := ih (i0 + 1) bi bv
        rcases hc with ⟨hk, hv, hmin⟩ | ⟨hlt, hfm⟩
        · refine ⟨k, v, by rw [hstep]; exact hgo, Or.inl ⟨hk, hv, ?_⟩⟩
          intro j w hj
          cases j with
          | zero => rw [List.getD_cons_zero] at hj; cases hj; exact hub
          | succ j => rw [List.getD_cons_succ] at hj; exact hmin j w hj
        · exact ⟨k, v, by rw [hstep]; exact hgo,
            Or.inr ⟨hlt, hfm.cons_min (fun w hw => by cases hw; exact lt_of_lt_of_le hlt hub)⟩⟩

theorem idxminGo_none_spec : ∀ (xs : List (Option ℚ)) (i0 : ℕ),
    idxminGo xs i0 none = none ∨
    ∃ k v, idxminGo xs i0 none = some (k, v) ∧ IsFirstMinFrom xs i0 k v := by
  intro xs
  induction xs with
  | nil => intro i0; exact Or.inl rfl
  | cons x xs ih =>
    intro i0
    cases x with
    | none =>
      rcases ih (i0 + 1) with hnone | ⟨k, v, hgo, hfm⟩
      · exact Or.inl hnone
      · exact Or.inr ⟨k, v, hgo, hfm.cons_min (fun u hu => by cases hu)⟩
    | some u =>
      obtain ⟨k, v, hgo, hc⟩ := idxminGo_spec xs (i0 + 1) i0 u
      refine Or.inr ?_
      rcases hc with ⟨rfl, rfl, hmin⟩ | ⟨hlt, hfm⟩
      · exact ⟨k, v, hgo, firstMin_here hmin⟩
      · exact ⟨k, v, hgo, hfm.cons_min (fun w hw => by cases hw; exact hlt)⟩

theorem weekdayAgg_map_num (table : Table)
    (hne : ∀ w : Fin 7, ∃ r ∈ table, wd r.date = w) :
    (weekdayAgg table).map AggRow.weekday_num = List.finRange 7 := by
  unfold weekdayAgg
  have key : ∀ ws : List (Fin 7),
      ((ws.filterMap fun w =>
        let g := table.filter fun r => wd r.date == w
        if g.isEmpty then none
        else some { weekday_num := w
                    weekday := weekdayName w
                    avg_price := sqlAvg (g.map Row.price)
                    avg_volume := sqlAvg (g.map Row.volume) }).map AggRow.weekday_num) = ws := by
    intro ws
    induction ws with
    | nil => rfl
    | cons w ws ih =>
      have hgne : ¬(table.filter fun r => wd r.date == w).isEmpty = true := by
        obtain ⟨r, hr, hw⟩ := hne w
        have hmem : r ∈ table.filter fun r => wd r.date == w :=
          List.mem_filter.2 ⟨hr, by rw [hw]; exact beq_self_eq_true w⟩
        intro hempty
        rw [List.isEmpty_iff] at hempty
        rw [hempty] at hmem
        cases hmem
      simp only [List.filterMap_cons]
      rw [if_neg hgne]
      dsimp only []
      rw [List.map_cons, ih]
  exact key (List.finRange 7)

theorem weekdayAgg_weekday_eq (table : Table) (a : AggRow) (ha : a ∈ weekdayAgg table) :
    a.weekday = weekdayName a.weekday_num := by
  unfold weekdayAgg at ha
  rw [List.mem_filterMap] at ha
  obtain ⟨w, _, hw⟩ := ha
  dsimp only [] at hw
  by_cases hgE : (table.filter fun r => wd r.date == w).isEmpty = true
  · rw [if_pos hgE] at hw
    cases hw
  · rw [if_neg hgE] at hw
    cases hw
    rfl

/-- Claim C9: with seven consecutive daily dates present, the weekday aggregation
has one row per weekday label, in Sunday-first (`weekday_num` ascending)
order; and the report's argmax/argmin over average volume pick, under ties,
the first row in that grouping order: `idxmax`/`idxmin` return a position
holding a valid extremal value that every earlier position fails to
reach. -/
theorem C9_weekday_rows_and_tiebreak :
    (∀ (table : Table) (d : ℕ),
      (∀ i, i < 7 → ∃ r ∈ table, r.date = d + i) →
      (weekdayAgg table).map AggRow.weekday_num = List.finRange 7 ∧
      (weekdayAgg table).map AggRow.weekday
        = ["Sunday", "Monday", "Tuesday", "Wednesday", "Thursday", "Friday", "Saturday"]) ∧
    (∀ (xs : List (Option ℚ)) (i : ℕ), idxmax xs = some i →
      ∃ v, xs.getD i none = some v ∧ (∀ j w, xs.getD j none = some w → w ≤ v) ∧
        ∀ j w, j < i → xs.getD j none = some w → w < v) ∧
    (∀ (xs : List (Option ℚ)) (i : ℕ), idxmin xs = some i →
      ∃ v, xs.getD i none = some v ∧ (∀ j w, xs.getD j none = some w → v ≤ w) ∧
        ∀ j w, j < i → xs.getD j none = some w → v < w) := by
  refine ⟨?_, ?_, ?_⟩
  · intro table d hspan
    have hcover : ∀ w : Fin 7, ∃ r ∈ table, wd r.date = w := by
      intro w
      obtain ⟨r, hr, hdate⟩ := hspan ((w.val + 7 - (d + 4) % 7) % 7) (by omega)
      refine ⟨r, hr, ?_⟩
      apply Fin.ext
      show (r.date + 4) % 7 = w.val
      have hw7 : w.val < 7 := w.isLt
      rw [hdate]
      omega
    have h1 := weekdayAgg_map_num table hcover
    refine ⟨h1, ?_⟩
    have h2 : (weekdayAgg table).map AggRow.weekday
        = (weekdayAgg table).map (fun a => weekdayName a.weekday_num) :=
      List.map_congr_left (fun a ha => weekdayAgg_weekday_eq table a ha)
    have h3 : (weekdayAgg table).map (fun a => weekdayName a.weekday_num)
        = ((weekdayAgg table).map AggRow.weekday_num).map weekdayName := by
      rw [List.map_map]
      rfl
    rw [h2, h3, h1]
    rfl
  · intro xs i h
    unfold idxmax at h
    rcases idxmaxGo_none_spec xs 0 with hnone | ⟨k, v, hgo, hfm⟩
    · rw [hnone] at h
      cases h
    · rw [hgo] at h
      simp only [Option.map_some'] at h
      cases h
      obtain ⟨_, hget, hmax, hfirst⟩ := hfm
      refine ⟨v, by simpa using hget, hmax, ?_⟩
      intro j w hj hw
      exact hfirst j w (by omega) hw
  · intro xs i h
    unfold idxmin at h
    rcases idxminGo_none_spec xs 0 with hnone | ⟨k, v, hgo, hfm⟩
    · rw [hnone] at h
      cases h
    · rw [hgo] at h
      simp only [Option.map_some'] at h
      cases h
      obtain ⟨_, hget, hmin, hfirst⟩ := hfm
      refine ⟨v, by simpa using hget, hmin, ?_⟩
      intro j w hj hw
      exact hfirst j w (by omega) hw

/-- Claim C9 witness: the coverage conjunct on a table of seven consecutive
days. -/
theorem C9_weekday_rows_and_tiebreak_witness :
    (weekdayAgg [⟨0, some 1, some 1, some 1⟩, ⟨1, some 1, some 1, some 1⟩,
        ⟨2, some 1, some 1, some 1⟩, ⟨3, some 1, some 1, some 1⟩,
        ⟨4, some 1, some 1, some 1⟩, ⟨5, some 1, some 1, some 1⟩,
        ⟨6, some 1, some 1, some 1⟩]).map AggRow.weekday_num = List.finRange 7 :=
  (C9_weekday_rows_and_tiebreak.1 _ 0 (by decide)).1

/-- The merge `pd.merge(btc_df[['date','price']], eth_df[['date','price']], on='date')`:
the inner join on date, keeping the left frame's order (dates are unique by
the store's primary key). -/
def innerJoin (btc eth : List Row) : List (Option ℚ × Option ℚ) :=
  btc.filterMap fun r => (eth.find? fun s => s.date == r.date).map fun s => (r.price, s.price)

/-- The dict `analyze_data` returns.  The Pearson correlation scalar the
source computes is a real-valued (square-root) function of
`correlation_pairs`; no claim concerns its value, so the join it is computed
from is carried instead. -/
structure AnalysisOut where
  bitcoin : Summary
  ethereum : Summary
  correlation_pairs : List (Option ℚ × Option ℚ)
  btc_weekday_trends : List AggRow

/-- Function `analyze_data` from `analyze_data.py`: per-coin summaries over the
cleaned frames passed in (Bitcoin first, as in the Python loop), the
correlation join of the two cleaned frames, and the weekday aggregation,
which a fresh SQLite query computes from the persisted `bitcoin` table
`db` — not from the cleaned frames. -/
def analyze_data (btc eth : List Row) (db : Table) : Except AnalyzeErr AnalysisOut :=
  match assetSummary btc with
  | .error e => .error e
  | .ok b =>
    match assetSummary eth with
    | .error e => .error e
    | .ok e2 =>
      .ok { bitcoin := b
            ethereum := e2
            correlation_pairs := innerJoin btc eth
            btc_weekday_trends := weekdayAgg db }

theorem analyze_ok_trends (btc eth : List Row) (db : Table) (a : AnalysisOut)
    (h : analyze_data btc eth db = Except.ok a) :
    a.btc_weekday_trends = weekdayAgg db := by
  unfold analyze_data at h
  cases hb : assetSummary btc with
  | error e => rw [hb] at h; cases h
  | ok b =>
    rw [hb] at h
    cases he : assetSummary eth with
    | error e => rw [he] at h; cases h
    | ok e2 =>
      rw [he] at h
      cases h
      rfl

theorem weekdayAgg_singleton (r : Row) :
    weekdayAgg [r]
      = [{ weekday_num := wd r.date
           weekday := weekdayName (wd r.date)
           avg_price := sqlAvg [r.price]
           avg_volume := sqlAvg [r.volume] }] := by
  unfold weekdayAgg
  have h7 : List.finRange 7 = [0, 1, 2, 3, 4, 5, 6] := by decide
  rw [h7]
  have hfilter : ∀ w : Fin 7,
      ([r].filter fun s => wd s.date == w) = if wd r.date == w then [r] else [] := by
    intro w
    simp [List.filter_singleton]
  simp only [hfilter]
  generalize hw : wd r.date = w0
  fin_cases w0 <;> simp [List.filterMap_cons, weekdayName]

/-- Claim C10: the weekday aggregation of `analyze_data` is a function of the
persisted `bitcoin` table alone — changing the cleaned in-memory frames
never changes it — and it takes stored rows exactly as they are: a stored
row with non-positive or missing price/volume enters the per-weekday
averages as stored, with no filtering or interpolation. -/
theorem C10_trends_from_db_only :
    (∀ (btc eth btc2 eth2 : List Row) (db : Table) (a a2 : AnalysisOut),
      analyze_data btc eth db = Except.ok a → analyze_data btc2 eth2 db = Except.ok a2 →
      a.btc_weekday_trends = a2.btc_weekday_trends ∧ a.btc_weekday_trends = weekdayAgg db) ∧
    (∀ r : Row, weekdayAgg [r]
      = [{ weekday_num := wd r.date, weekday := weekdayName (wd r.date),
           avg_price := sqlAvg [r.price], avg_volume := sqlAvg [r.volume] }]) := by
  constructor
  · intro btc eth btc2 eth2 db a a2 h1 h2
    have t1 := analyze_ok_trends btc eth db a h1
    have t2 := analyze_ok_trends btc2 eth2 db a2 h2
    exact ⟨t1.trans t2.symm, t1⟩
  · exact weekdayAgg_singleton

/-- Claim C10 witness: two analyses over different cleaned frames but the same
stored table (which holds a negative-price, missing-volume row) agree on
the weekday trends. -/
theorem C10_trends_from_db_only_witness :
    ∃ a a2 : AnalysisOut,
      analyze_data [⟨0, some 1, some 1, some 1⟩] [⟨0, some 1, some 1, some 1⟩]
        [⟨3, some (-5), none, some 1⟩] = Except.ok a ∧
      analyze_data [⟨1, some 2, some 7, some 1⟩, ⟨2, some 3, some 8, some 1⟩]
        [⟨1, some 2, some 7, some 1⟩] [⟨3, some (-5), none, some 1⟩] = Except.ok a2 ∧
      a.btc_weekday_trends = a2.btc_weekday_trends := by
  refine ⟨_, _, rfl, rfl, ?_⟩
  exact (C10_trends_from_db_only.1 [⟨0, some 1, some 1, some 1⟩]
    [⟨0, some 1, some 1, some 1⟩] [⟨1, some 2, some 7, some 1⟩, ⟨2, some 3, some 8, some 1⟩]
    [⟨1, some 2, some 7, some 1⟩] [⟨3, some (-5), none, some 1⟩] _ _ rfl rfl).1
